import Mathlib

/-!
Verification of the bounded-concurrency dispatch layer of the Paragon
hosting server. The Go source (main.go) and the browser load-test script
are embedded shallowly: JSON numbers and tensor values become rationals,
machine counters become integers, the semaphore channel becomes a natural
count of held permits, and the interleaving of the blast goroutines
becomes an explicit scheduler-indexed step relation.
-/

namespace ParagonServer

/-- Shared server counters: sem is the number of permits currently taken
from the channel of capacity maxgpu, inflight is the int64 counter. -/
structure DState where
  sem : Nat
  inflight : Int
deriving DecidableEq, Repr

/-- Range clamp used by reshape: values below 0 become 0, above 1 become 1. -/
def clamp01 (v : ℚ) : ℚ :=
  if v < 0 then 0 else if v > 1 then 1 else v

/-- Embedding of reshape: checks that the flat slice has length W*H, then
builds H rows of W clamped values, row-major. -/
def reshape (W H : Nat) (flat : List ℚ) : Except String (List (List ℚ)) :=
  if flat.length ≠ W * H then
    Except.error "flattened input must be length w*h"
  else
    Except.ok ((List.range H).map (fun r =>
      (List.range W).map (fun c => clamp01 (flat.getD (r * W + c) 0))))

/-- Request body of the infer endpoint: a flattened input or a 2-d image. -/
structure InferReq where
  input : List ℚ
  image : List (List ℚ)
deriving DecidableEq, Repr

/-- Embedding of normalizeInput: a non-empty image is accepted when its row
count is H and its first row has length W, and is returned unchanged; a
non-empty flat input goes through reshape; otherwise an error. -/
def normalizeInput (W H : Nat) (req : InferReq) : Except String (List (List ℚ)) :=
  if req.image.length > 0 then
    if req.image.length ≠ H ∨ (req.image.headD []).length ≠ W then
      Except.error "image must be hxw"
    else
      Except.ok req.image
  else if req.input.length > 0 then
    reshape W H req.input
  else
    Except.error "provide image or input"

/-- The shape and range invariant the spec asserts of accepted tensors:
exactly H rows of exactly W values each, all within 0..1. -/
def wellShaped (W H : Nat) (img : List (List ℚ)) : Prop :=
  img.length = H ∧ ∀ row ∈ img, row.length = W ∧ ∀ v ∈ row, 0 ≤ v ∧ v ≤ 1

instance (W H : Nat) (img : List (List ℚ)) : Decidable (wellShaped W H img) := by
  unfold wellShaped; infer_instance

/-- Embedding of handleInfer as far as state is concerned: on a
normalizeInput error the handler returns before touching sem or inflight;
on success the request dispatches (net state effect zero after the
deferred release and decrement have run). -/
def handleInfer (W H : Nat) (st : DState) (req : InferReq) :
    Except String (List (List ℚ)) × DState :=
  match normalizeInput W H req with
  | Except.error e => (Except.error e, st)
  | Except.ok img => (Except.ok img, st)

/-- Result fields of one dispatch that claim C4 is about. -/
structure DispatchOut where
  inFlightReported : Int
deriving DecidableEq, Repr

/-- Sequential (single request, no contention) execution of the dispatch
body in source order: acquire the permit, increment inflight, compute,
read inflight into the result, release the permit, decrement inflight.
Both the infer handler (where the release and decrement sit in a defer
that runs after the response is built) and each blast goroutine perform
these effects in this order. -/
def dispatchSolo (st : DState) : DispatchOut × DState :=
  let st1 : DState := { st with sem := st.sem + 1 }
  let st2 : DState := { st1 with inflight := st1.inflight + 1 }
  let reported := st2.inflight
  let st3 : DState := { st2 with sem := st2.sem - 1 }
  let st4 : DState := { st3 with inflight := st3.inflight - 1 }
  ({ inFlightReported := reported }, st4)

/-- Timing fields reported by one dispatch. -/
structure TaskTiming where
  queuedMs : ℚ
  latencyMs : ℚ
deriving DecidableEq, Repr

/-- Embedding of durMs: microseconds to fractional milliseconds. -/
def durMs (microseconds : Nat) : ℚ :=
  (microseconds : ℚ) / 1000

/-- Timing of the infer handler with a queue wait of q microseconds and a
compute section of c microseconds, following the source order: startQ is
taken before the semaphore send, qDelay after it, start after it, and
LatencyMs measures from start. -/
def handleInferTimed (q c : Nat) : TaskTiming :=
  let t := 0
  let startQ := t
  let t := t + q
  let qDelay := t - startQ
  let start := t
  let t := t + c
  let latency := t - start
  { queuedMs := durMs qDelay, latencyMs := durMs latency }

/-- Timing of one blast goroutine with a queue wait of q microseconds and
a compute section of c microseconds, following the source order: t0 is
taken before the semaphore send, qDelay after it, and LatencyMs measures
from t0, not from a post-acquisition timestamp. -/
def blastTaskTimed (q c : Nat) : TaskTiming :=
  let t := 0
  let t0 := t
  let t := t + q
  let qDelay := t - t0
  let t := t + c
  let latency := t - t0
  { queuedMs := durMs qDelay, latencyMs := durMs latency }

/-- Request body of the blast endpoint. -/
structure BlastReq where
  n : Int
  input : List ℚ
deriving DecidableEq, Repr

/-- Successful output of the blast endpoint: how many tasks were launched
and the result slot array (none marks a slot never written). -/
structure BlastOut (α : Type) where
  tasksLaunched : Nat
  results : List (Option α)
deriving DecidableEq, Repr

/-- The slot array produced by running the blast tasks: starting from N
empty slots, each completing task ix writes its own result at index ix;
the list order gives the completion order of the tasks. -/
def blastRun {α : Type} (N : Nat) (f : Nat → α) (order : List Nat) : List (Option α) :=
  order.foldl (fun acc i => acc.set i (some (f i))) (List.replicate N none)

/-- Embedding of handleBlast: reject n outside 1..2000 before reshaping
and before launching any task, then reshape, then launch the tasks and
wait for all of them; f gives the per-task dispatch result and order the
completion order. The waited-out state equals the entry state because
each task increments and decrements once. -/
def handleBlast {α : Type} (W H : Nat) (st : DState) (req : BlastReq)
    (f : Nat → α) (order : List Nat) : Except String (BlastOut α) × DState :=
  if req.n ≤ 0 ∨ req.n > 2000 then
    (Except.error "n must be 1..2000", st)
  else
    match reshape W H req.input with
    | Except.error e => (Except.error e, st)
    | Except.ok _img =>
        (Except.ok { tasksLaunched := req.n.toNat
                     results := blastRun req.n.toNat f order }, st)

/-- Request body of the infer-batch endpoint. -/
structure BatchReq where
  batch : List (List ℚ)
  images : List (List (List ℚ))
deriving DecidableEq, Repr

/-- Reshape every flat row of a batch, stopping at the first error, as the
loop in handleInferBatch does. -/
def reshapeAll (W H : Nat) : List (List ℚ) → Except String (List (List (List ℚ)))
  | [] => Except.ok []
  | flat :: rest =>
    match reshape W H flat with
    | Except.error e => Except.error e
    | Except.ok img =>
      match reshapeAll W H rest with
      | Except.error e => Except.error e
      | Except.ok imgs => Except.ok (img :: imgs)

/-- Embedding of handleInferBatch as far as state is concerned: validation
happens before the semaphore send; the handler then takes one permit,
loops over the images under the gpu mutex, and the deferred receive gives
the permit back. It never touches the inflight counter. -/
def handleInferBatch (W H : Nat) (st : DState) (req : BatchReq) :
    Except String (List (List (List ℚ))) × DState :=
  let imgsE : Except String (List (List (List ℚ))) :=
    if req.images.length > 0 then Except.ok req.images
    else if req.batch.length > 0 then reshapeAll W H req.batch
    else Except.error "provide images or batch"
  match imgsE with
  | Except.error e => (Except.error e, st)
  | Except.ok imgs =>
      let stAcq : DState := { st with sem := st.sem + 1 }
      let stRel : DState := { stAcq with sem := stAcq.sem - 1 }
      (Except.ok imgs, stRel)

/-- Embedding of the health endpoint: it reports the inflight counter. -/
def handleHealth (st : DState) : Int :=
  st.inflight

/-- Embedding of argmax64, inner loop: walk the tail with the running
index, best index and best value; a strictly larger value replaces the
best, so ties keep the earlier index. -/
def argmaxAux : List ℚ → Nat → Nat → ℚ → Nat
  | [], _, bestI, _ => bestI
  | x :: xs, i, bestI, best =>
    if best < x then argmaxAux xs (i + 1) i x
    else argmaxAux xs (i + 1) bestI best

/-- Embedding of argmax64: minus one on the empty vector, else the index
of the first maximum. -/
def argmax64 : List ℚ → Int
  | [] => -1
  | x :: xs => (argmaxAux xs 1 0 x : Int)

/-- The property claim C9 asserts of the returned index: it is in range,
it attains the maximum, and every earlier entry is strictly below it. -/
def IsFirstArgmax (v : List ℚ) (r : Nat) : Prop :=
  r < v.length ∧ (∀ j < v.length, v.getD j 0 ≤ v.getD r 0) ∧
    ∀ j < r, v.getD j 0 < v.getD r 0

instance (v : List ℚ) (r : Nat) : Decidable (IsFirstArgmax v r) := by
  unfold IsFirstArgmax; infer_instance

/-- Summary record produced by the percentiles function. -/
structure Summary where
  p50 : ℚ
  p90 : ℚ
  p99 : ℚ
  mean : ℚ
  max : ℚ
deriving DecidableEq, Repr

/-- The nearest-rank pick index of the script: floor of p times (n-1),
clamped into 0..n-1 exactly as Math.max and Math.min do it. -/
def nearestRankIdx (n : Nat) (p : ℚ) : Nat :=
  Int.toNat (max 0 (min ((n : Int) - 1) ⌊p * (((n : Int) - 1 : Int) : ℚ)⌋))

/-- The pick helper of the percentiles function applied to the sorted
copy. -/
def pick (a : List ℚ) (p : ℚ) : ℚ :=
  a.getD (nearestRankIdx a.length p) 0

/-- Embedding of the percentiles function of the load-test script: sort a
copy ascending, pick the nearest-rank entries for 0.5, 0.9 and 0.99, take
the arithmetic mean of the sorted copy, and its last entry as the max.
The input list is never mutated (the script sorts a slice copy; here
purity is intrinsic). -/
def percentiles (arr : List ℚ) : Summary :=
  let a := List.insertionSort (fun x y => x ≤ y) arr
  { p50 := pick a (1/2)
    p90 := pick a (9/10)
    p99 := pick a (99/100)
    mean := a.sum / (a.length : ℚ)
    max := a.getD (a.length - 1) 0 }

/-- Per-task phase in the dispatch interleaving automaton. A task starts
before the semaphore send, is acquired once the send succeeded, is
working after its inflight increment, is released once it gave the permit
back, and is done after its inflight decrement. The order of the four
effects is the order of the source: acquire, increment, release,
decrement. -/
inductive Phase where
  | start
  | acquired
  | working
  | released
  | done
deriving DecidableEq, Repr

/-- Global interleaving state: gate capacity K, permits held, the inflight
counter and the phase of each task. -/
structure Sys where
  K : Nat
  sem : Nat
  inflight : Int
  tasks : List Phase
deriving DecidableEq, Repr

/-- One atomic effect of a task in the given phase: the semaphore send is
enabled only while fewer than K permits are held; the other three effects
are always enabled. -/
def stepTask (K sem : Nat) (inflight : Int) : Phase → Option (Phase × Nat × Int)
  | Phase.start =>
      if sem < K then some (Phase.acquired, sem + 1, inflight) else none
  | Phase.acquired => some (Phase.working, sem, inflight + 1)
  | Phase.working => some (Phase.released, sem - 1, inflight)
  | Phase.released => some (Phase.done, sem, inflight - 1)
  | Phase.done => none

/-- Advance task i of the system by its next enabled effect. -/
def step (s : Sys) (i : Nat) : Option Sys :=
  match s.tasks[i]? with
  | none => none
  | some p =>
    match stepTask s.K s.sem s.inflight p with
    | none => none
    | some (p2, sem2, inflight2) =>
        some { K := s.K, sem := sem2, inflight := inflight2
               tasks := s.tasks.set i p2 }

/-- Run a schedule: a list of task indices, each performing its next
effect in turn. This ranges over every interleaving of the atomic
effects. -/
def run (s : Sys) : List Nat → Option Sys
  | [] => some s
  | i :: rest =>
    match step s i with
    | none => none
    | some s2 => run s2 rest

/-- Initial state for n concurrently dispatched requests against a gate of
capacity K: no permit held, inflight zero, every task at start. -/
def initSys (K n : Nat) : Sys :=
  { K := K, sem := 0, inflight := 0, tasks := List.replicate n Phase.start }

/-- Count the occurrences of a value in a list, by decidable equality. -/
def countEq {α : Type} [DecidableEq α] (a : α) : List α → Nat
  | [] => 0
  | x :: xs => (if x = a then 1 else 0) + countEq a xs

/-- The inductive invariant of the interleaving automaton: capacity is
constant, held permits are the tasks between acquire and release,
inflight counts the tasks between increment and decrement, and held
permits never exceed capacity. -/
def Inv (K : Nat) (s : Sys) : Prop :=
  s.K = K ∧
  s.sem ≤ K ∧
  s.sem = countEq Phase.acquired s.tasks + countEq Phase.working s.tasks ∧
  s.inflight = (countEq Phase.working s.tasks : Int) +
    (countEq Phase.released s.tasks : Int)

end ParagonServer

namespace ParagonServer

/-- Setting an index not equal to the probed one leaves getD unchanged. -/
theorem getD_set_ne {α : Type} (l : List α) (i j : Nat) (x d : α) (h : i ≠ j) :
    (l.set i x).getD j d = l.getD j d := by
  induction l generalizing i j with
  | nil => simp [List.set]
  | cons b t ih =>
    cases i with
    | zero =>
      cases j with
      | zero => exact absurd rfl h
      | succ k => simp [List.set]
    | succ m =>
      cases j with
      | zero => simp [List.set]
      | succ k =>
        simp only [List.set, List.getD_cons_succ]
        exact ih m k (by omega)

/-- Setting an index in range makes getD return the written value. -/
theorem getD_set_self {α : Type} (l : List α) (i : Nat) (x d : α) (h : i < l.length) :
    (l.set i x).getD i d = x := by
  induction l generalizing i with
  | nil => simp at h
  | cons b t ih =>
    cases i with
    | zero => simp [List.set]
    | succ m =>
      simp only [List.set, List.getD_cons_succ]
      exact ih m (by simpa using h)

/-- The slot-writing fold preserves the length of the slot array. -/
theorem foldl_set_length {α : Type} (f : Nat → α) (order : List Nat)
    (acc : List (Option α)) :
    (order.foldl (fun acc i => acc.set i (some (f i))) acc).length = acc.length := by
  induction order generalizing acc with
  | nil => rfl
  | cons j rest ih =>
    simp only [List.foldl_cons]
    rw [ih]
    exact List.length_set acc j _

/-- A slot whose index never occurs in the completion order is never
written. -/
theorem foldl_set_not_mem {α : Type} (f : Nat → α) (order : List Nat)
    (acc : List (Option α)) (i : Nat) (h : i ∉ order) :
    (order.foldl (fun acc j => acc.set j (some (f j))) acc).getD i none
      = acc.getD i none := by
  induction order generalizing acc with
  | nil => rfl
  | cons j rest ih =>
    simp only [List.foldl_cons]
    have hji : j ≠ i := fun e => h (e ▸ List.mem_cons_self j rest)
    rw [ih _ (fun hm => h (List.mem_cons_of_mem j hm))]
    exact getD_set_ne acc j i _ none hji

/-- A slot whose index occurs in the completion order ends up holding the
result of its own task. -/
theorem foldl_set_mem {α : Type} (f : Nat → α) (order : List Nat)
    (acc : List (Option α)) (i : Nat) (hmem : i ∈ order) (hlen : i < acc.length) :
    (order.foldl (fun acc j => acc.set j (some (f j))) acc).getD i none
      = some (f i) := by
  induction order generalizing acc with
  | nil => simp at hmem
  | cons j rest ih =>
    simp only [List.foldl_cons]
    by_cases hr : i ∈ rest
    · exact ih _ hr (by rw [List.length_set]; exact hlen)
    · have hij : i = j := by
        rcases List.mem_cons.mp hmem with h1 | h2
        · exact h1
        · exact absurd h2 hr
      subst hij
      rw [foldl_set_not_mem f rest _ i hr]
      exact getD_set_self acc i (some (f i)) none hlen

/-- Every tensor produced by reshape is well shaped: H rows of W clamped
values. -/
theorem reshape_wellShaped (W H : Nat) (flat : List ℚ) (img : List (List ℚ))
    (h : reshape W H flat = Except.ok img) : wellShaped W H img := by
  unfold reshape at h
  split at h
  · exact absurd h (by simp)
  · have himg : img = (List.range H).map (fun r =>
        (List.range W).map (fun c => clamp01 (flat.getD (r * W + c) 0))) := by
      injection h with h2
      exact h2.symm
    subst himg
    refine ⟨by simp, ?_⟩
    intro row hrow
    simp only [List.mem_map, List.mem_range] at hrow
    obtain ⟨r, _, rfl⟩ := hrow
    refine ⟨by simp, ?_⟩
    intro v hv
    simp only [List.mem_map, List.mem_range] at hv
    obtain ⟨c, _, rfl⟩ := hv
    unfold clamp01
    split
    · exact ⟨le_refl 0, by norm_num⟩
    · split
      · exact ⟨by norm_num, le_refl 1⟩
      · constructor
        · linarith [not_lt.mp (by assumption : ¬ flat.getD (r * W + c) 0 < 0)]
        · linarith [not_lt.mp (by assumption : ¬ flat.getD (r * W + c) 0 > 1)]

end ParagonServer


namespace ParagonServer

/-- Effect of a single set on the occurrence count, stated additively to
stay in natural numbers. -/
theorem countEq_set {α : Type} [DecidableEq α] (l : List α) (i : Nat) (x y a : α)
    (h : l[i]? = some y) :
    countEq a (l.set i x) + (if y = a then 1 else 0)
      = countEq a l + (if x = a then 1 else 0) := by
  induction l generalizing i with
  | nil => simp at h
  | cons b t ih =>
    cases i with
    | zero =>
      simp only [List.getElem?_cons_zero, Option.some.injEq] at h
      subst h
      simp only [List.set, countEq]
      omega
    | succ m =>
      simp only [List.getElem?_cons_succ] at h
      simp only [List.set, countEq]
      have := ih m h
      omega

/-- A value present at some index occurs at least once. -/
theorem countEq_pos {α : Type} [DecidableEq α] (l : List α) (i : Nat) (y : α)
    (h : l[i]? = some y) : 1 ≤ countEq y l := by
  induction l generalizing i with
  | nil => simp at h
  | cons b t ih =>
    cases i with
    | zero =>
      simp only [List.getElem?_cons_zero, Option.some.injEq] at h
      subst h
      have hcnt : countEq b (b :: t) = 1 + countEq b t := by simp [countEq]
      omega
    | succ m =>
      simp only [List.getElem?_cons_succ] at h
      have := ih m h
      simp only [countEq]
      omega

/-- Occurrence count in a replicated list. -/
theorem countEq_replicate {α : Type} [DecidableEq α] (n : Nat) (a b : α) :
    countEq a (List.replicate n b) = if b = a then n else 0 := by
  induction n with
  | zero => simp [countEq]
  | succ m ih =>
    simp only [List.replicate_succ, countEq, ih]
    split <;> omega

/-- The initial state of the dispatch automaton satisfies the invariant. -/
theorem initSys_inv (K n : Nat) : Inv K (initSys K n) := by
  refine ⟨rfl, Nat.zero_le K, ?_, ?_⟩ <;>
    simp [initSys, countEq_replicate]

/-- One step of any task preserves the invariant. -/
theorem step_inv (K : Nat) (s s2 : Sys) (i : Nat) (hInv : Inv K s)
    (h : step s i = some s2) : Inv K s2 := by
  obtain ⟨hK, hsem, hcnt, hinf⟩ := hInv
  unfold step at h
  cases hp : s.tasks[i]? with
  | none => rw [hp] at h; exact absurd h (by simp)
  | some p =>
    rw [hp] at h
    cases p with
    | start =>
      simp only [stepTask] at h
      by_cases hc : s.sem < s.K
      · rw [if_pos hc] at h
        simp only [Option.some.injEq] at h
        subst h
        have hA := countEq_set s.tasks i Phase.acquired Phase.start Phase.acquired hp
        have hW := countEq_set s.tasks i Phase.acquired Phase.start Phase.working hp
        have hR := countEq_set s.tasks i Phase.acquired Phase.start Phase.released hp
        simp at hA hW hR
        refine ⟨hK, ?_, ?_, ?_⟩
        · show s.sem + 1 ≤ K
          omega
        · show s.sem + 1 = countEq Phase.acquired (s.tasks.set i Phase.acquired)
            + countEq Phase.working (s.tasks.set i Phase.acquired)
          omega
        · show s.inflight = (countEq Phase.working (s.tasks.set i Phase.acquired) : Int)
            + (countEq Phase.released (s.tasks.set i Phase.acquired) : Int)
          omega
      · rw [if_neg hc] at h
        exact absurd h (by simp)
    | acquired =>
      simp only [stepTask, Option.some.injEq] at h
      subst h
      have hA := countEq_set s.tasks i Phase.working Phase.acquired Phase.acquired hp
      have hW := countEq_set s.tasks i Phase.working Phase.acquired Phase.working hp
      have hR := countEq_set s.tasks i Phase.working Phase.acquired Phase.released hp
      simp at hA hW hR
      refine ⟨hK, ?_, ?_, ?_⟩
      · show s.sem ≤ K
        exact hsem
      · show s.sem = countEq Phase.acquired (s.tasks.set i Phase.working)
          + countEq Phase.working (s.tasks.set i Phase.working)
        omega
      · show s.inflight + 1 = (countEq Phase.working (s.tasks.set i Phase.working) : Int)
          + (countEq Phase.released (s.tasks.set i Phase.working) : Int)
        omega
    | working =>
      simp only [stepTask, Option.some.injEq] at h
      subst h
      have hpos := countEq_pos s.tasks i Phase.working hp
      have hA := countEq_set s.tasks i Phase.released Phase.working Phase.acquired hp
      have hW := countEq_set s.tasks i Phase.released Phase.working Phase.working hp
      have hR := countEq_set s.tasks i Phase.released Phase.working Phase.released hp
      simp at hA hW hR
      refine ⟨hK, ?_, ?_, ?_⟩
      · show s.sem - 1 ≤ K
        omega
      · show s.sem - 1 = countEq Phase.acquired (s.tasks.set i Phase.released)
          + countEq Phase.working (s.tasks.set i Phase.released)
        omega
      · show s.inflight = (countEq Phase.working (s.tasks.set i Phase.released) : Int)
          + (countEq Phase.released (s.tasks.set i Phase.released) : Int)
        omega
    | released =>
      simp only [stepTask, Option.some.injEq] at h
      subst h
      have hpos := countEq_pos s.tasks i Phase.released hp
      have hA := countEq_set s.tasks i Phase.done Phase.released Phase.acquired hp
      have hW := countEq_set s.tasks i Phase.done Phase.released Phase.working hp
      have hR := countEq_set s.tasks i Phase.done Phase.released Phase.released hp
      simp at hA hW hR
      refine ⟨hK, ?_, ?_, ?_⟩
      · show s.sem ≤ K
        exact hsem
      · show s.sem = countEq Phase.acquired (s.tasks.set i Phase.done)
          + countEq Phase.working (s.tasks.set i Phase.done)
        omega
      · show s.inflight - 1 = (countEq Phase.working (s.tasks.set i Phase.done) : Int)
          + (countEq Phase.released (s.tasks.set i Phase.done) : Int)
        omega
    | done =>
      simp only [stepTask] at h
      exact absurd h (by simp)

/-- Every state reached by running a schedule from an invariant state
satisfies the invariant. -/
theorem run_inv (K : Nat) (sched : List Nat) (s s2 : Sys) (hInv : Inv K s)
    (h : run s sched = some s2) : Inv K s2 := by
  induction sched generalizing s with
  | nil =>
    simp only [run, Option.some.injEq] at h
    exact h ▸ hInv
  | cons i rest ih =>
    unfold run at h
    cases hs : step s i with
    | none => rw [hs] at h; exact absurd h (by simp)
    | some s3 =>
      rw [hs] at h
      exact ih s3 (step_inv K s s3 i hInv hs) h

end ParagonServer

namespace ParagonServer

/-- Loop invariant of the argmax scan: if best is the maximum of the
prefix with its first occurrence at bestI, then the scan of the rest
returns the first maximum of the whole vector. -/
theorem argmaxAux_spec (xs : List ℚ) : ∀ (pre : List ℚ) (bestI : Nat) (best : ℚ),
    bestI < pre.length →
    pre.getD bestI 0 = best →
    (∀ j < pre.length, pre.getD j 0 ≤ best) →
    (∀ j < bestI, pre.getD j 0 < best) →
    IsFirstArgmax (pre ++ xs) (argmaxAux xs pre.length bestI best) := by
  induction xs with
  | nil =>
    intro pre bestI best hb hbest hmax hfirst
    simp only [argmaxAux, List.append_nil]
    exact ⟨hb, fun j hj => hbest ▸ hmax j hj, fun j hj => hbest ▸ hfirst j hj⟩
  | cons x xs ih =>
    intro pre bestI best hb hbest hmax hfirst
    simp only [argmaxAux]
    have hlen : pre.length + 1 = (pre ++ [x]).length := by simp
    have happ : pre ++ x :: xs = (pre ++ [x]) ++ xs := by simp
    by_cases hx : best < x
    · rw [if_pos hx, happ, hlen]
      apply ih (pre ++ [x]) pre.length x
      · simp
      · rw [List.getD_append_right pre [x] 0 pre.length (le_refl _)]
        simp
      · intro j hj
        simp only [List.length_append, List.length_singleton] at hj
        rcases Nat.lt_succ_iff_lt_or_eq.mp hj with hj2 | hj2
        · rw [List.getD_append pre [x] 0 j hj2]
          exact le_of_lt (lt_of_le_of_lt (hmax j hj2) hx)
        · subst hj2
          rw [List.getD_append_right pre [x] 0 pre.length (le_refl _)]
          simp
      · intro j hj
        rw [List.getD_append pre [x] 0 j hj]
        exact lt_of_le_of_lt (hmax j hj) hx
    · rw [if_neg hx, happ, hlen]
      apply ih (pre ++ [x]) bestI best
      · simp
        omega
      · rw [List.getD_append pre [x] 0 bestI hb]
        exact hbest
      · intro j hj
        simp only [List.length_append, List.length_singleton] at hj
        rcases Nat.lt_succ_iff_lt_or_eq.mp hj with hj2 | hj2
        · rw [List.getD_append pre [x] 0 j hj2]
          exact hmax j hj2
        · subst hj2
          rw [List.getD_append_right pre [x] 0 pre.length (le_refl _)]
          simpa using not_lt.mp hx
      · intro j hj
        rw [List.getD_append pre [x] 0 j (lt_trans hj hb)]
        exact hfirst j hj

/-- The last entry of a list sorted ascending bounds every member. -/
theorem sorted_le_getD_last (b : List ℚ) (hs : b.Sorted (fun x y => x ≤ y))
    (x : ℚ) (hx : x ∈ b) : x ≤ b.getD (b.length - 1) 0 := by
  obtain ⟨i, hi, rfl⟩ := List.mem_iff_getElem.mp hx
  have hlast : b.length - 1 < b.length := by omega
  rw [List.getD_eq_getElem b 0 hlast]
  have := hs.rel_get_of_le (a := ⟨i, hi⟩) (b := ⟨b.length - 1, hlast⟩)
    (by simp [Fin.le_def]; omega)
  simpa using this

/-- The last entry of a non-empty list is a member. -/
theorem getD_last_mem (b : List ℚ) (hne : b ≠ []) :
    b.getD (b.length - 1) 0 ∈ b := by
  have hlast : b.length - 1 < b.length := by
    have := List.length_pos.mpr hne
    omega
  rw [List.getD_eq_getElem b 0 hlast]
  exact List.getElem_mem hlast

end ParagonServer

namespace ParagonServer

/-- C1 (counterexample): the claim that the inflight counter never exceeds
the gate capacity K in every interleaving is false. With K = 1 and two
blast tasks, the schedule in which task 0 acquires, increments and
releases its permit, and task 1 then acquires and increments before task
0 has decremented, drives the counter to 2 > K: the code gives the permit
back before decrementing the counter. -/
theorem inflight_exceeds_gate_capacity :
    (run (initSys 1 2) [0, 0, 0, 1, 1]).map Sys.inflight = some 2 ∧
    ((2 : Int) > (1 : Int)) ∧ (initSys 1 2).K = 1 := by
  decide

/-- C1 (amended): in every state reachable by any interleaving of the
dispatch effects from the initial state, the inflight counter is bounded
by the gate capacity K plus the number of tasks that have already given
their permit back but have not yet decremented the counter; the overshoot
is exactly the release-to-decrement window. -/
theorem inflight_bounded_by_capacity_plus_pending (K n : Nat) (sched : List Nat)
    (s : Sys) (h : run (initSys K n) sched = some s) :
    s.inflight ≤ (K : Int) + (countEq Phase.released s.tasks : Int) := by
  obtain ⟨hK, hsem, hcnt, hinf⟩ := run_inv K sched (initSys K n) s (initSys_inv K n) h
  omega

/-- C1 (witness): the amended bound instantiated on the overshooting
schedule itself. -/
theorem inflight_bound_witness :
    run (initSys 1 2) [0, 0, 0, 1, 1] =
      some { K := 1, sem := 1, inflight := 2
             tasks := [Phase.released, Phase.working] } ∧
    ({ K := 1, sem := 1, inflight := 2
       tasks := [Phase.released, Phase.working] } : Sys).inflight
      ≤ ((1 : Nat) : Int) +
        (countEq Phase.released
          ({ K := 1, sem := 1, inflight := 2
             tasks := [Phase.released, Phase.working] } : Sys).tasks : Int) :=
  ⟨by decide,
   inflight_bounded_by_capacity_plus_pending 1 2 [0, 0, 0, 1, 1] _ (by decide)⟩

/-- C3: a blast request with n below 1 or above 2000 is rejected with an
error before any task is launched and before reshaping, leaving the
whole server state, in particular the inflight counter and the permit
count, unchanged. -/
theorem blast_rejects_invalid_n {α : Type} (W H : Nat) (st : DState)
    (req : BlastReq) (f : Nat → α) (order : List Nat)
    (h : req.n < 1 ∨ req.n > 2000) :
    handleBlast W H st req f order = (Except.error "n must be 1..2000", st) := by
  unfold handleBlast
  rw [if_pos (by omega)]

/-- C3 (witness): rejection at n = 0 and at n = 2001. -/
theorem blast_rejects_invalid_n_witness :
    handleBlast 1 1 { sem := 0, inflight := 0 } { n := 0, input := [0] }
        (fun i => i) []
      = (Except.error "n must be 1..2000", { sem := 0, inflight := 0 }) ∧
    handleBlast 1 1 { sem := 0, inflight := 0 } { n := 2001, input := [0] }
        (fun i => i) []
      = (Except.error "n must be 1..2000", { sem := 0, inflight := 0 }) :=
  ⟨blast_rejects_invalid_n 1 1 _ _ _ _ (Or.inl (by decide)),
   blast_rejects_invalid_n 1 1 _ _ _ _ (Or.inr (by decide))⟩

/-- C4 (counterexample): the claim that the reported inflight value is the
post-decrement counter is false. A single dispatch starting from an idle
server reports inflight 1, while the post-decrement value is 0: the
response is built, and the counter read, before the deferred decrement
runs. -/
theorem dispatch_inflight_pre_decrement_cex :
    (dispatchSolo { sem := 0, inflight := 0 }).1.inFlightReported = 1 ∧
    ((dispatchSolo { sem := 0, inflight := 0 }).2).inflight = 0 ∧
    (1 : Int) ≠ 0 := by
  decide

/-- C4 (amended): for every dispatch the inflight value placed in the
result is the value observed after the own increment and before the own
decrement, hence one more than the entry value in an uncontended run; the
decrement still happens before the dispatch completes, restoring the
counter. -/
theorem dispatch_reports_pre_decrement (st : DState) :
    (dispatchSolo st).1.inFlightReported = st.inflight + 1 ∧
    ((dispatchSolo st).2).inflight = st.inflight ∧
    ((dispatchSolo st).2).sem = st.sem := by
  refine ⟨rfl, ?_, ?_⟩ <;> simp [dispatchSolo]

/-- C5 (counterexample): the claim that the reported compute latency
excludes the queue delay on every dispatch path is false for the blast
path: with a queue wait of 5000 microseconds and a compute section of
3000 microseconds a blast task reports 8 ms of latency, not the 3 ms the
claim requires. -/
theorem blast_latency_includes_queue_cex :
    (blastTaskTimed 5000 3000).latencyMs = 8 ∧
    (blastTaskTimed 5000 3000).queuedMs = 5 ∧
    (handleInferTimed 5000 3000).latencyMs = 3 ∧
    ((8 : ℚ) ≠ 3) := by
  norm_num [blastTaskTimed, handleInferTimed, durMs]

/-- C5 (amended): the infer handler measures latency from a timestamp
taken after the permit acquisition, so its latency excludes the queue
delay; each blast task measures latency from the timestamp taken before
the permit acquisition, so its latency includes the queue delay. Both
report the queue delay itself correctly. -/
theorem latency_measurement_amended (q c : Nat) :
    (handleInferTimed q c).latencyMs = durMs c ∧
    (handleInferTimed q c).queuedMs = durMs q ∧
    (blastTaskTimed q c).latencyMs = durMs (q + c) ∧
    (blastTaskTimed q c).queuedMs = durMs q := by
  have h1 : 0 + q + c - (0 + q) = c := by omega
  have h2 : 0 + q - 0 = q := by omega
  have h3 : 0 + q + c - 0 = q + c := by omega
  simp only [handleInferTimed, blastTaskTimed]
  rw [h1, h2, h3]
  exact ⟨rfl, rfl, rfl, rfl⟩

/-- C7 (counterexample): the claimed p90 = 50 on the sample sequence is
false: the sorted copy of the five samples is indexed at floor of 0.9
times 4, which is 3, giving 40. -/
theorem percentiles_sample_p90_cex :
    (percentiles [10, 20, 30, 40, 50]).p90 = 40 ∧ ¬ ((40 : ℚ) = 50) := by
  constructor
  · norm_num [percentiles, pick, nearestRankIdx, List.insertionSort,
      List.orderedInsert]
    decide
  · norm_num

/-- C7 (amended): on the sample sequence the summarize operation yields
p50 = 30, p90 = 40, mean = 30 and max = 50. -/
theorem percentiles_sample_values :
    (percentiles [10, 20, 30, 40, 50]).p50 = 30 ∧
    (percentiles [10, 20, 30, 40, 50]).p90 = 40 ∧
    (percentiles [10, 20, 30, 40, 50]).mean = 30 ∧
    (percentiles [10, 20, 30, 40, 50]).max = 50 := by
  refine ⟨?_, ?_, ?_, ?_⟩ <;>
    · norm_num [percentiles, pick, nearestRankIdx, List.insertionSort,
        List.orderedInsert]
      try decide

/-- C9: on every non-empty vector argmax64 returns a non-negative index
that attains the maximum and is the smallest such index, since only a
strictly larger value replaces the running best. -/
theorem argmax64_first_max (v : List ℚ) (h : v ≠ []) :
    0 ≤ argmax64 v ∧ IsFirstArgmax v (argmax64 v).toNat := by
  match v with
  | x :: xs =>
    have hspec := argmaxAux_spec xs [x] 0 x (by simp) (by simp)
      (by
        intro j hj
        simp only [List.length_singleton] at hj
        have hj0 : j = 0 := by omega
        subst hj0
        simp)
      (by intro j hj; exact absurd hj (Nat.not_lt_zero j))
    constructor
    · show 0 ≤ ((argmaxAux xs 1 0 x : Nat) : Int)
      exact Int.natCast_nonneg _
    · show IsFirstArgmax (x :: xs) ((argmaxAux xs 1 0 x : Nat) : Int).toNat
      rw [Int.toNat_natCast]
      simpa using hspec

/-- C9 (witness): on the tie vector of the spec the returned index is 1,
the first occurrence of the maximum 0.5. -/
theorem argmax64_first_max_witness :
    ([0.2, 0.5, 0.5, 0.1] : List ℚ) ≠ [] ∧
    (0 ≤ argmax64 [0.2, 0.5, 0.5, 0.1] ∧
      IsFirstArgmax [0.2, 0.5, 0.5, 0.1] (argmax64 [0.2, 0.5, 0.5, 0.1]).toNat) ∧
    argmax64 [0.2, 0.5, 0.5, 0.1] = 1 :=
  ⟨by simp, argmax64_first_max _ (by simp),
   by norm_num [argmax64, argmaxAux]⟩

/-- C10: the infer-batch handler leaves the inflight counter unchanged on
every request and every entry state: it acquires and releases a permit
but never touches the counter, so batch requests are invisible to the
inflight value reported by the health endpoint. -/
theorem inferBatch_inflight_unchanged (W H : Nat) (st : DState) (req : BatchReq) :
    ((handleInferBatch W H st req).2).inflight = st.inflight ∧
    ((handleInferBatch W H st req).2).sem = st.sem ∧
    handleHealth ((handleInferBatch W H st req).2) = handleHealth st := by
  unfold handleInferBatch handleHealth
  split
  · simp
  · split
    · cases hr : reshapeAll W H req.batch <;> simp
    · simp

end ParagonServer

namespace ParagonServer

/-- C2: for every valid burst (1 <= n <= 2000, input of the right shape)
the blast handler launches n tasks and returns, after all of them have
completed in an arbitrary completion order, a slot array of length n in
which slot i holds the result of task i: slot assignment is by request
index, every slot is written, and the outcome is independent of the
completion order. -/
theorem blast_index_stable {α : Type} (W H : Nat) (st : DState) (req : BlastReq)
    (f : Nat → α) (order : List Nat) (img : List (List ℚ))
    (h1 : 1 ≤ req.n) (h2 : req.n ≤ 2000)
    (hre : reshape W H req.input = Except.ok img)
    (hperm : order.Perm (List.range req.n.toNat)) :
    handleBlast W H st req f order =
      (Except.ok { tasksLaunched := req.n.toNat
                   results := blastRun req.n.toNat f order }, st) ∧
    (blastRun req.n.toNat f order).length = req.n.toNat ∧
    ∀ i < req.n.toNat, (blastRun req.n.toNat f order).getD i none = some (f i) := by
  refine ⟨?_, ?_, ?_⟩
  · unfold handleBlast
    rw [if_neg (by omega), hre]
  · unfold blastRun
    rw [foldl_set_length]
    exact List.length_replicate _ _
  · intro i hi
    unfold blastRun
    exact foldl_set_mem f order _ i (hperm.mem_iff.mpr (List.mem_range.mpr hi))
      (by rw [List.length_replicate]; exact hi)

/-- C2 (witness): a burst of three with the non-FIFO completion order
2, 0, 1 still produces the index-stable slot array. -/
theorem blast_index_stable_witness :
    handleBlast 1 1 { sem := 0, inflight := 0 } { n := 3, input := [1] }
        (fun i => i) [2, 0, 1] =
      (Except.ok { tasksLaunched := (3 : Int).toNat
                   results := blastRun (3 : Int).toNat (fun i => i) [2, 0, 1] },
        { sem := 0, inflight := 0 }) ∧
    (blastRun (3 : Int).toNat (fun i => i) [2, 0, 1]).length = (3 : Int).toNat ∧
    ∀ i < (3 : Int).toNat,
      (blastRun (3 : Int).toNat (fun i => i) [2, 0, 1]).getD i none = some i :=
  blast_index_stable 1 1 { sem := 0, inflight := 0 } { n := 3, input := [1] }
    (fun i => i) [2, 0, 1] [[1]] (by decide) (by decide) (by rfl) (by decide)

/-- C6 (counterexample): the claim that every accepted tensor has exactly
H rows of W values each, all clamped into 0..1, is false for the image
path: a 2 by 2 server accepts an image whose second row has only one
entry and whose values 2 and 5 lie outside 0..1, because the handler only
checks the row count and the width of the first row and never clamps. -/
theorem normalize_image_unchecked_cex :
    normalizeInput 2 2 { input := [], image := [[2, 0], [5]] }
      = Except.ok [[2, 0], [5]] ∧
    ¬ wellShaped 2 2 [[2, 0], [5]] := by
  constructor
  · rfl
  · decide

/-- C6 (amended): an accepted tensor always has exactly H rows; a tensor
accepted through the flattened input path is fully well shaped (W clamped
values per row); a tensor accepted through the image path is returned
unchanged with only its row count and the width of its first row checked;
and a rejected request produces an error before the handler touches the
semaphore or the inflight counter, leaving the state unchanged. -/
theorem infer_shape_amended (W H : Nat) (st : DState) (req : InferReq) :
    (∀ img, normalizeInput W H req = Except.ok img →
        img.length = H ∧
        (req.image = [] → wellShaped W H img) ∧
        (req.image ≠ [] → img = req.image ∧ (img.headD []).length = W)) ∧
    (∀ e, normalizeInput W H req = Except.error e →
        handleInfer W H st req = (Except.error e, st)) := by
  constructor
  · intro img himg
    unfold normalizeInput at himg
    by_cases h1 : req.image.length > 0
    · rw [if_pos h1] at himg
      by_cases h2 : req.image.length ≠ H ∨ (req.image.headD []).length ≠ W
      · rw [if_pos h2] at himg
        exact absurd himg (by simp)
      · rw [if_neg h2] at himg
        push_neg at h2
        obtain ⟨hH, hW⟩ := h2
        have himg2 : img = req.image := by
          injection himg with h3
          exact h3.symm
        subst himg2
        refine ⟨hH, ?_, ?_⟩
        · intro hempty
          rw [hempty] at h1
          simp at h1
        · intro _
          exact ⟨rfl, hW⟩
    · rw [if_neg h1] at himg
      by_cases h3 : req.input.length > 0
      · rw [if_pos h3] at himg
        have hw := reshape_wellShaped W H req.input img himg
        refine ⟨hw.1, fun _ => hw, ?_⟩
        intro hne
        exact absurd (List.length_pos.mpr hne) h1
      · rw [if_neg h3] at himg
        exact absurd himg (by simp)
  · intro e he
    unfold handleInfer
    rw [he]

/-- C8: on every non-empty sample list the summarize operation returns,
for each of the three probabilities, the entry of the ascending-sorted
copy of the input at index floor of p times (n - 1) clamped into the
valid range, together with the arithmetic mean and the maximum of the
samples; the sorted copy is characterized abstractly as any sorted
permutation of the input, and the input itself is not consumed. -/
theorem summarize_spec (arr a : List ℚ) (hne : arr ≠ [])
    (hs : List.Sorted (fun x y => x ≤ y) a) (hp : a.Perm arr) :
    (percentiles arr).p50 = a.getD (nearestRankIdx arr.length (1/2)) 0 ∧
    (percentiles arr).p90 = a.getD (nearestRankIdx arr.length (9/10)) 0 ∧
    (percentiles arr).p99 = a.getD (nearestRankIdx arr.length (99/100)) 0 ∧
    (percentiles arr).mean = arr.sum / (arr.length : ℚ) ∧
    (percentiles arr).max ∈ arr ∧
    ∀ x ∈ arr, x ≤ (percentiles arr).max := by
  have hsort : List.Sorted (fun x y => x ≤ y)
      (List.insertionSort (fun x y => x ≤ y) arr) :=
    List.sorted_insertionSort _ arr
  have hperm : (List.insertionSort (fun x y => x ≤ y) arr).Perm arr :=
    List.perm_insertionSort _ arr
  have hba : List.insertionSort (fun x y => x ≤ y) arr = a :=
    List.eq_of_perm_of_sorted (hperm.trans hp.symm) hsort hs
  have hlen : a.length = arr.length := hp.length_eq
  have hane : a ≠ [] := by
    intro h0
    apply hne
    have hl := hp.length_eq
    rw [h0] at hl
    exact List.length_eq_zero.mp hl.symm
  refine ⟨?_, ?_, ?_, ?_, ?_, ?_⟩
  · show pick (List.insertionSort (fun x y => x ≤ y) arr) (1/2)
      = a.getD (nearestRankIdx arr.length (1/2)) 0
    unfold pick
    rw [hba, hlen]
  · show pick (List.insertionSort (fun x y => x ≤ y) arr) (9/10)
      = a.getD (nearestRankIdx arr.length (9/10)) 0
    unfold pick
    rw [hba, hlen]
  · show pick (List.insertionSort (fun x y => x ≤ y) arr) (99/100)
      = a.getD (nearestRankIdx arr.length (99/100)) 0
    unfold pick
    rw [hba, hlen]
  · show (List.insertionSort (fun x y => x ≤ y) arr).sum
        / ((List.insertionSort (fun x y => x ≤ y) arr).length : ℚ)
      = arr.sum / (arr.length : ℚ)
    rw [hba, hlen, hp.sum_eq]
  · show (List.insertionSort (fun x y => x ≤ y) arr).getD
        ((List.insertionSort (fun x y => x ≤ y) arr).length - 1) 0 ∈ arr
    rw [hba]
    exact hp.mem_iff.mp (getD_last_mem a hane)
  · intro x hx
    show x ≤ (List.insertionSort (fun x y => x ≤ y) arr).getD
        ((List.insertionSort (fun x y => x ≤ y) arr).length - 1) 0
    rw [hba]
    exact sorted_le_getD_last a hs x (hp.mem_iff.mpr hx)

/-- C8 (witness): the specification instantiated on the samples 30, 10,
20 with their ascending-sorted copy 10, 20, 30. -/
theorem summarize_spec_witness :
    (percentiles [30, 10, 20]).p50
        = ([10, 20, 30] : List ℚ).getD
            (nearestRankIdx ([30, 10, 20] : List ℚ).length (1/2)) 0 ∧
    (percentiles [30, 10, 20]).p90
        = ([10, 20, 30] : List ℚ).getD
            (nearestRankIdx ([30, 10, 20] : List ℚ).length (9/10)) 0 ∧
    (percentiles [30, 10, 20]).p99
        = ([10, 20, 30] : List ℚ).getD
            (nearestRankIdx ([30, 10, 20] : List ℚ).length (99/100)) 0 ∧
    (percentiles [30, 10, 20]).mean
        = ([30, 10, 20] : List ℚ).sum / ((([30, 10, 20] : List ℚ).length : Nat) : ℚ) ∧
    (percentiles [30, 10, 20]).max ∈ ([30, 10, 20] : List ℚ) ∧
    ∀ x ∈ ([30, 10, 20] : List ℚ), x ≤ (percentiles [30, 10, 20]).max :=
  summarize_spec [30, 10, 20] [10, 20, 30] (by simp)
    (by norm_num [List.Sorted, List.pairwise_cons]) (by decide)

end ParagonServer
